import Mathlib

/-!
Verification of the yeast-cell detection post-processing pipeline
(celldetection/detect.py) and the image-enhancement pipeline
(celldetection/enhance/*.py).

Real-valued image/score arithmetic is embedded with exact rationals;
the floating-point special values produced by a zero IoU denominator
(NaN / infinity) are embedded as the absent case of an Option, whose
ordering comparisons evaluate to false exactly as IEEE comparisons on
NaN and +infinity against a finite threshold do.

External library primitives (OpenCV filters, colour conversions,
connected-component extraction, the neural model) are parameters of the
embedding; the repository code that orchestrates them is translated
directly.
-/

/-- A bounding box [x1, y1, x2, y2], as stored in the rows of the
`boxes` array handled by nms in detect.py. -/
structure Box where
  x1 : ℚ
  y1 : ℚ
  x2 : ℚ
  y2 : ℚ
deriving DecidableEq

instance : Inhabited Box := ⟨⟨0, 0, 0, 0⟩⟩

/-- detect.py line 149: areas = (x2 - x1) * (y2 - y1). -/
def area (b : Box) : ℚ := (b.x2 - b.x1) * (b.y2 - b.y1)

/-- detect.py lines 161-171: clamped axis-aligned intersection area,
w = max(0, xx2 - xx1), h = max(0, yy2 - yy1), inter = w * h. -/
def interArea (a b : Box) : ℚ :=
  (max 0 (min a.x2 b.x2 - max a.x1 b.x1)) * (max 0 (min a.y2 b.y2 - max a.y1 b.y1))

/-- detect.py line 174: the denominator areas[i] + areas[j] - inter. -/
def iouDenom (a b : Box) : ℚ := area a + area b - interArea a b

/-- The IoU value computed at detect.py line 174.  A zero denominator
produces NaN (0/0) or +infinity in numpy; both are embedded as none. -/
def iouOpt (a b : Box) : Option ℚ :=
  if iouDenom a b = 0 then none else some (interArea a b / iouDenom a b)

/-- detect.py line 177: the boolean iou <= iou_threshold used by
np.where.  NaN <= t and +inf <= t are false in IEEE arithmetic, hence
the none case yields false. -/
def iouLE (a b : Box) (t : ℚ) : Bool :=
  match iouOpt a b with
  | none => false
  | some v => decide (v ≤ t)

/-- detect.py line 152: scores.argsort()[::-1], a descending sort of the
indices 0..N-1 by score.  numpy's default argsort leaves the order of
tied scores unspecified; the embedding fixes a deterministic descending
sort, and only tie-order-insensitive properties are proved. -/
def argsortDesc (scores : List ℚ) : List ℕ :=
  List.insertionSort (fun i j => scores.getD j 0 ≤ scores.getD i 0) (List.range scores.length)

/-- detect.py lines 155-180, the suppression loop: keep the head of the
order, retain only the remaining indices whose IoU comparison with it
succeeds, recurse.  The loop consumes at least one index per iteration,
so a fuel equal to the initial length of the order is exact. -/
def nmsGo (boxes : List Box) (t : ℚ) : ℕ → List ℕ → List ℕ
  | _, [] => []
  | 0, _ :: _ => []
  | fuel + 1, i :: rest =>
      i :: nmsGo boxes t fuel
        (rest.filter fun j => iouLE (boxes.getD i default) (boxes.getD j default) t)

/-- detect.py lines 124-182: non-maximum suppression. -/
def nms (boxes : List Box) (scores : List ℚ) (t : ℚ) : List ℕ :=
  if boxes.length = 0 then []
  else nmsGo boxes t (argsortDesc scores).length (argsortDesc scores)

/-- Follows the spec's words (section 4.2 edge cases and 4.3): the IoU with
the guard "if both compared areas are zero, treat IoU as 0". -/
def iouSpecVal (a b : Box) : ℚ :=
  if area a = 0 ∧ area b = 0 then 0 else interArea a b / iouDenom a b

/-- Follows the spec's words (section 4.3): the greedy loop that discards a
remaining box exactly when its guarded IoU strictly exceeds the
threshold. -/
def nmsSpecGo (boxes : List Box) (t : ℚ) : ℕ → List ℕ → List ℕ
  | _, [] => []
  | 0, _ :: _ => []
  | fuel + 1, i :: rest =>
      i :: nmsSpecGo boxes t fuel
        (rest.filter fun j =>
          decide (iouSpecVal (boxes.getD i default) (boxes.getD j default) ≤ t))

/-- Follows the spec's words: NMS with the guarded IoU. -/
def nmsSpec (boxes : List Box) (scores : List ℚ) (t : ℚ) : List ℕ :=
  if boxes.length = 0 then []
  else nmsSpecGo boxes t (argsortDesc scores).length (argsortDesc scores)

/-- An image as a row-major grid of pixel values (height rows, each a
list of width pixels); the pixel type is abstract (an 8-bit channel
value or an RGB/LAB triple). -/
abbrev Grid (α : Type) := List (List α)

/-- Pixel access with a default for out-of-range coordinates. -/
def getPixel {α : Type} (g : Grid α) (y x : ℕ) (d : α) : α := (g.getD y []).getD x d

/-- numpy row-slice assignment: write vals into the row starting at
column x, never past column maxX.  A numpy slice assignment cannot write
outside the slice (shapes always match in the source because every
OpenCV operation preserves shape). -/
def overwriteRow {α : Type} : List α → ℕ → ℕ → List α → List α
  | row, _, _, [] => row
  | row, x, maxX, v :: vs =>
      if x ≤ maxX then overwriteRow (row.set x v) (x + 1) maxX vs else row

/-- The slice assignment enhanced_img[min_y:max_y+1, min_x:max_x+1] =
roi_enhanced at small_cell.py line 103: write the roi rows into the
image starting at row y, never past row maxY nor column maxX. -/
def spliceGrid {α : Type} : Grid α → ℕ → ℕ → ℕ → ℕ → Grid α → Grid α
  | img, _, _, _, _, [] => img
  | img, y, maxY, minX, maxX, r :: rs =>
      if y ≤ maxY then
        spliceGrid (img.set y (overwriteRow (img.getD y []) minX maxX r))
          (y + 1) maxY minX maxX rs
      else img

/-- small_cell.py line 84: roi = enhanced_img[min_y:max_y+1, min_x:max_x+1]. -/
def crop {α : Type} (g : Grid α) (minY maxY minX maxX : ℕ) : Grid α :=
  ((g.drop minY).take (maxY + 1 - minY)).map fun row => (row.drop minX).take (maxX + 1 - minX)

/-- Positions (y, x) of the entries of one mask row that are strictly
positive; y is the row index and x the column of the first entry. -/
def nonzeroRow (y : ℕ) : ℕ → List ℕ → List (ℕ × ℕ)
  | _, [] => []
  | x, v :: vs => (if 0 < v then [(y, x)] else []) ++ nonzeroRow y (x + 1) vs

def nonzeroAux : ℕ → Grid ℕ → List (ℕ × ℕ)
  | _, [] => []
  | y, row :: rows => nonzeroRow y 0 row ++ nonzeroAux (y + 1) rows

/-- small_cell.py line 76: np.where(combined_mask > 0), the coordinates
of the strictly positive mask pixels. -/
def nonzeroPos (mask : Grid ℕ) : List (ℕ × ℕ) := nonzeroAux 0 mask

/-- np.min over a list of coordinates (value 0 for an empty list, which
the source never queries because of the emptiness guard). -/
def listMin : List ℕ → ℕ
  | [] => 0
  | [a] => a
  | a :: b :: l => min a (listMin (b :: l))

/-- np.max over a list of coordinates. -/
def listMax : List ℕ → ℕ
  | [] => 0
  | [a] => a
  | a :: b :: l => max a (listMax (b :: l))

/-- Two grids with the same height and the same width on every row. -/
def sameShape {α : Type} (g g' : Grid α) : Prop :=
  g.length = g'.length ∧ ∀ y, (g.getD y []).length = (g'.getD y []).length

/-- small_cell.py lines 72-105: copy the image; find the non-zero pixels
of the accumulator mask; if any exist and the tight bounding rectangle
of those pixels is non-degenerate (min_y < max_y and min_x < max_x),
enhance the cropped ROI and splice it back at the same coordinates;
otherwise return the copy unchanged.  The mask construction (adaptive
threshold, connected components, dilation, Canny edges, Gaussian blur;
lines 30-70) and the ROI enhancement (LAB conversion, CLAHE, sharpening;
lines 87-100) are OpenCV pipelines, taken as the parameters maskOf and
roiFn. -/
def enhance_small_cells {α : Type} (maskOf : Grid α → Grid ℕ) (roiFn : Grid α → Grid α)
    (image : Grid α) : Grid α :=
  if nonzeroPos (maskOf image) = [] then image
  else if listMin ((nonzeroPos (maskOf image)).map Prod.fst)
          < listMax ((nonzeroPos (maskOf image)).map Prod.fst)
        ∧ listMin ((nonzeroPos (maskOf image)).map Prod.snd)
          < listMax ((nonzeroPos (maskOf image)).map Prod.snd) then
    spliceGrid image
      (listMin ((nonzeroPos (maskOf image)).map Prod.fst))
      (listMax ((nonzeroPos (maskOf image)).map Prod.fst))
      (listMin ((nonzeroPos (maskOf image)).map Prod.snd))
      (listMax ((nonzeroPos (maskOf image)).map Prod.snd))
      (roiFn (crop image
        (listMin ((nonzeroPos (maskOf image)).map Prod.fst))
        (listMax ((nonzeroPos (maskOf image)).map Prod.fst))
        (listMin ((nonzeroPos (maskOf image)).map Prod.snd))
        (listMax ((nonzeroPos (maskOf image)).map Prod.snd))))
  else image

/-- The closed set of method names dispatched at enhance.py lines 54-79
(an unknown name raises ValueError and is outside the model). -/
inductive Method
  | adaptive
  | clahe
  | adaptive_clahe
  | guided
  | basic
deriving DecidableEq

/-- The external primitives composed by enhance.py.  Each is an OpenCV
pipeline (or, for the adaptive and guided methods, a module wrapping
OpenCV calls); their per-pixel numeric behaviour lives outside the
repository and they enter the model as opaque functions on grids. -/
structure EnhancePrims (α : Type) where
  adaptiveFn : Grid α → Grid α
  claheFn : Grid α → Grid α
  adaptiveClaheFn : Grid α → Grid α
  guidedFn : Grid α → Grid α
  basicFn : Grid α → Grid α
  denoiseFn : Grid α → Grid α
  maskOf : Grid α → Grid ℕ
  roiFn : Grid α → Grid α

/-- enhance.py lines 54-79: method dispatch. -/
def dispatchMethod {α : Type} (P : EnhancePrims α) : Method → Grid α → Grid α
  | Method.adaptive => P.adaptiveFn
  | Method.clahe => P.claheFn
  | Method.adaptive_clahe => P.adaptiveClaheFn
  | Method.guided => P.guidedFn
  | Method.basic => P.basicFn

/-- enhance.py lines 21-97: dispatch the method-specific enhancement,
optionally apply small-cell enhancement, optionally denoise
(denoise_level > 0). -/
def enhance_image {α : Type} (P : EnhancePrims α) (method : Method)
    (small_cell_enhancement : Bool) (denoise_level : ℕ) (image : Grid α) : Grid α :=
  if 0 < denoise_level then
    P.denoiseFn
      (if small_cell_enhancement then
        enhance_small_cells P.maskOf P.roiFn (dispatchMethod P method image)
      else dispatchMethod P method image)
  else
    (if small_cell_enhancement then
      enhance_small_cells P.maskOf P.roiFn (dispatchMethod P method image)
    else dispatchMethod P method image)

/-- Python's int() truncation toward zero, applied to an exact rational. -/
def pyInt (q : ℚ) : ℤ := if 0 ≤ q then ⌊q⌋ else ⌈q⌉

/-- small_cell.py lines 24-28: min_dim = min(h, w) and
cell_pixel_threshold = int(min_dim * cell_size_threshold). -/
def cellPixelThreshold (h w : ℕ) (rel : ℚ) : ℤ :=
  pyInt (((min h w : ℕ) : ℚ) * rel)

/-- small_cell.py line 48: a connected component with bounding-box
dimensions width x height is treated as small when
max(width, height) < cell_pixel_threshold (the stats come from
cv2.connectedComponentsWithStats, an external primitive). -/
def isSmallComponent (h w : ℕ) (rel : ℚ) (width height : ℕ) : Bool :=
  decide (((max width height : ℕ) : ℤ) < cellPixelThreshold h w rel)

/-- The logistic sigmoid applied by torch.sigmoid at detect.py line 101. -/
noncomputable def sigmoid (x : ℝ) : ℝ := 1 / (1 + Real.exp (-x))

/-- One row of the prediction tensor: columns 0-3 the box, column 4 the
confidence logit, columns 5 and later the per-class logits
(detect.py lines 99-110). -/
structure PredRow where
  x1 : ℝ
  y1 : ℝ
  x2 : ℝ
  y2 : ℝ
  logit : ℝ
  classLogits : List ℝ

/-- detect.py line 101: scores = torch.sigmoid(prediction[:, 4]). -/
noncomputable def confidence (r : PredRow) : ℝ := sigmoid r.logit

/-- detect.py lines 104-106: mask = scores > threshold and the
row selection boxes[mask] / scores[mask] (the same mask also selects
the class columns at line 111). -/
noncomputable def scoreFilter (pred : List PredRow) (t : ℝ) : List PredRow :=
  pred.filter fun r => decide (t < confidence r)

/-- Identity instantiation of the external enhancement primitives, used
to exercise the shape theorem on a concrete image. -/
def idPrims : EnhancePrims ℕ :=
  ⟨id, id, id, id, id, id, fun _ => [], id⟩

/-- The example row of the spec: box [0.1, 0.1, 0.4, 0.4] with raw
confidence logit 0 and no class columns. -/
noncomputable def exampleRow : PredRow :=
  ⟨1/10, 1/10, 4/10, 4/10, 0, []⟩

/-- The example scenario of the spec (section 8): three boxes, the first
two overlapping with IoU about 0.68, the third disjoint. -/
def exBoxes : List Box := [⟨0, 0, 10, 10⟩, ⟨1, 1, 11, 11⟩, ⟨50, 50, 60, 60⟩]

/-- The example scores of the spec (section 8). -/
def exScores : List ℚ := [9/10, 8/10, 95/100]

theorem iouLE_of_some_le {a b : Box} {t : ℚ}
    (h : iouLE a b t = true) : ∀ v, iouOpt a b = some v → v ≤ t := by
  intro v hv
  unfold iouLE at h
  rw [hv] at h
  exact of_decide_eq_true h

theorem interArea_comm (a b : Box) : interArea a b = interArea b a := by
  unfold interArea
  rw [min_comm a.x2 b.x2, max_comm a.x1 b.x1, min_comm a.y2 b.y2, max_comm a.y1 b.y1]

theorem iouDenom_comm (a b : Box) : iouDenom a b = iouDenom b a := by
  unfold iouDenom
  rw [interArea_comm, add_comm (area a)]

theorem iouOpt_comm (a b : Box) : iouOpt a b = iouOpt b a := by
  unfold iouOpt
  rw [iouDenom_comm, interArea_comm]

theorem iouLE_comm (a b : Box) (t : ℚ) : iouLE a b t = iouLE b a t := by
  unfold iouLE
  rw [iouOpt_comm]

theorem interArea_nonneg (a b : Box) : 0 ≤ interArea a b :=
  mul_nonneg (le_max_left 0 _) (le_max_left 0 _)

theorem interArea_eq_zero_left {a : Box} (b : Box) (ha : area a = 0) :
    interArea a b = 0 := by
  unfold area at ha
  unfold interArea
  rcases mul_eq_zero.mp ha with h | h
  · have hx : a.x2 = a.x1 := by linarith [sub_eq_zero.mp h]
    have hle : min a.x2 b.x2 - max a.x1 b.x1 ≤ 0 := by
      have h1 : min a.x2 b.x2 ≤ a.x2 := min_le_left _ _
      have h2 : a.x1 ≤ max a.x1 b.x1 := le_max_left _ _
      linarith
    rw [max_eq_left hle, zero_mul]
  · have hy : a.y2 = a.y1 := by linarith [sub_eq_zero.mp h]
    have hle : min a.y2 b.y2 - max a.y1 b.y1 ≤ 0 := by
      have h1 : min a.y2 b.y2 ≤ a.y2 := min_le_left _ _
      have h2 : a.y1 ≤ max a.y1 b.y1 := le_max_left _ _
      linarith
    rw [max_eq_left hle, mul_zero]

theorem iouDenom_eq_zero_of_areas {a b : Box} (ha : area a = 0) (hb : area b = 0) :
    iouDenom a b = 0 := by
  unfold iouDenom
  rw [ha, hb, interArea_eq_zero_left b ha]
  ring

theorem iouLE_false_of_areas {a b : Box} (t : ℚ) (ha : area a = 0) (hb : area b = 0) :
    iouLE a b t = false := by
  unfold iouLE iouOpt
  rw [if_pos (iouDenom_eq_zero_of_areas ha hb)]

theorem nmsGo_sublist (boxes : List Box) (t : ℚ) (fuel : ℕ) :
    ∀ order : List ℕ, order.length ≤ fuel →
      List.Sublist (nmsGo boxes t fuel order) order := by
  induction fuel with
  | zero =>
      intro order h
      cases order with
      | nil => exact List.Sublist.refl []
      | cons i rest => simp at h
  | succ n ih =>
      intro order h
      cases order with
      | nil => exact List.Sublist.refl []
      | cons i rest =>
        have hlen : (rest.filter fun j =>
            iouLE (boxes.getD i default) (boxes.getD j default) t).length ≤ n := by
          have h1 := List.length_filter_le
            (fun j => iouLE (boxes.getD i default) (boxes.getD j default) t) rest
          have h2 : rest.length ≤ n := by
            simpa using Nat.le_of_succ_le_succ h
          exact le_trans h1 h2
        have hsub := ih _ hlen
        have hfil : List.Sublist (rest.filter fun j =>
            iouLE (boxes.getD i default) (boxes.getD j default) t) rest :=
          List.filter_sublist rest
        exact List.Sublist.cons₂ i (hsub.trans hfil)

theorem nmsGo_subset (boxes : List Box) (t : ℚ) (fuel : ℕ)
    (order : List ℕ) (h : order.length ≤ fuel) :
    ∀ j ∈ nmsGo boxes t fuel order, j ∈ order :=
  fun _ hj => (nmsGo_sublist boxes t fuel order h).mem hj

theorem nmsGo_pairwise (boxes : List Box) (t : ℚ) (fuel : ℕ) :
    ∀ order : List ℕ, order.length ≤ fuel →
      (nmsGo boxes t fuel order).Pairwise
        (fun i j => iouLE (boxes.getD i default) (boxes.getD j default) t = true) := by
  induction fuel with
  | zero =>
      intro order h
      cases order with
      | nil => exact List.Pairwise.nil
      | cons i rest => simp at h
  | succ n ih =>
      intro order h
      cases order with
      | nil => exact List.Pairwise.nil
      | cons i rest =>
        have hlen : (rest.filter fun j =>
            iouLE (boxes.getD i default) (boxes.getD j default) t).length ≤ n := by
          have h1 := List.length_filter_le
            (fun j => iouLE (boxes.getD i default) (boxes.getD j default) t) rest
          have h2 : rest.length ≤ n := by
            simpa using Nat.le_of_succ_le_succ h
          exact le_trans h1 h2
        refine List.Pairwise.cons ?_ (ih _ hlen)
        intro j hj
        have hjf := nmsGo_subset boxes t n _ hlen j hj
        exact (List.mem_filter.mp hjf).2

theorem nmsGo_no_discard (boxes : List Box) (t : ℚ) (fuel : ℕ) :
    ∀ order : List ℕ, order.length ≤ fuel → order.Nodup →
      (∀ p ∈ order, ∀ q ∈ order, p ≠ q →
        iouLE (boxes.getD p default) (boxes.getD q default) t = true) →
      nmsGo boxes t fuel order = order := by
  induction fuel with
  | zero =>
      intro order h _ _
      cases order with
      | nil => rfl
      | cons i rest => simp at h
  | succ n ih =>
      intro order h hnd hall
      cases order with
      | nil => rfl
      | cons i rest =>
        have hinotin : i ∉ rest := (List.nodup_cons.mp hnd).1
        have hfil : (rest.filter fun j =>
            iouLE (boxes.getD i default) (boxes.getD j default) t) = rest := by
          apply List.filter_eq_self.mpr
          intro j hj
          have hne : i ≠ j := fun he => hinotin (he ▸ hj)
          exact hall i (List.mem_cons_self i rest) j (List.mem_cons_of_mem i hj) hne
        show i :: nmsGo boxes t n _ = i :: rest
        rw [hfil]
        congr 1
        refine ih rest ?_ (List.nodup_cons.mp hnd).2 ?_
        · simpa using Nat.le_of_succ_le_succ h
        · intro p hp q hq hpq
          exact hall p (List.mem_cons_of_mem i hp) q (List.mem_cons_of_mem i hq) hpq

theorem argsortDesc_perm (scores : List ℚ) :
    List.Perm (argsortDesc scores) (List.range scores.length) :=
  List.perm_insertionSort _ _

theorem argsortDesc_sorted (scores : List ℚ) :
    (argsortDesc scores).Sorted (fun i j => scores.getD j 0 ≤ scores.getD i 0) := by
  haveI ht : IsTotal ℕ (fun i j => scores.getD j 0 ≤ scores.getD i 0) :=
    ⟨fun i j => le_total (scores.getD j 0) (scores.getD i 0)⟩
  haveI htr : IsTrans ℕ (fun i j => scores.getD j 0 ≤ scores.getD i 0) :=
    ⟨fun _ _ _ hab hbc => le_trans hbc hab⟩
  exact List.sorted_insertionSort _ _

theorem nms_mem_lt (boxes : List Box) (scores : List ℚ) (t : ℚ) :
    ∀ i ∈ nms boxes scores t, i < scores.length := by
  intro i hi
  unfold nms at hi
  by_cases h0 : boxes.length = 0
  · rw [if_pos h0] at hi
    simp at hi
  · rw [if_neg h0] at hi
    have h1 := nmsGo_subset boxes t _ _ (le_refl _) i hi
    have h2 := (argsortDesc_perm scores).mem_iff.mp h1
    exact List.mem_range.mp h2

theorem nms_pairwise (boxes : List Box) (scores : List ℚ) (t : ℚ) :
    (nms boxes scores t).Pairwise
      (fun i j => iouLE (boxes.getD i default) (boxes.getD j default) t = true) := by
  unfold nms
  by_cases h0 : boxes.length = 0
  · rw [if_pos h0]
    exact List.Pairwise.nil
  · rw [if_neg h0]
    exact nmsGo_pairwise boxes t _ _ (le_refl _)

theorem nms_sorted (boxes : List Box) (scores : List ℚ) (t : ℚ) :
    (nms boxes scores t).Sorted (fun i j => scores.getD j 0 ≤ scores.getD i 0) := by
  unfold nms
  by_cases h0 : boxes.length = 0
  · rw [if_pos h0]
    exact List.Pairwise.nil
  · rw [if_neg h0]
    exact List.Pairwise.sublist (nmsGo_sublist boxes t _ _ (le_refl _))
      (argsortDesc_sorted scores)

theorem nms_idem_core (boxes : List Box) (scores : List ℚ) (t : ℚ) :
    List.Perm
      (nms ((nms boxes scores t).map fun i => boxes.getD i default)
           ((nms boxes scores t).map fun i => scores.getD i 0) t)
      (List.range (nms boxes scores t).length) := by
  set kept := nms boxes scores t with hkept
  set boxes' : List Box := kept.map fun i => boxes.getD i default with hboxes'
  set scores' : List ℚ := kept.map fun i => scores.getD i 0 with hscores'
  have hb'len : boxes'.length = kept.length := by rw [hboxes']; exact List.length_map _ _
  have hs'len : scores'.length = kept.length := by rw [hscores']; exact List.length_map _ _
  by_cases hk0 : kept.length = 0
  · have hb0 : boxes'.length = 0 := by rw [hb'len]; exact hk0
    rw [hk0]
    unfold nms
    rw [if_pos hb0]
    simp
  · have hb'0 : ¬ boxes'.length = 0 := by rw [hb'len]; exact hk0
    have hpw : kept.Pairwise
        (fun i j => iouLE (boxes.getD i default) (boxes.getD j default) t = true) :=
      nms_pairwise boxes scores t
    have hget : ∀ p, p < kept.length →
        boxes'.getD p default = boxes.getD (kept.getD p 0) default := by
      intro p hp
      have hp' : p < boxes'.length := by rw [hb'len]; exact hp
      rw [List.getD_eq_getElem boxes' default hp', List.getD_eq_getElem kept 0 hp]
      simp [hboxes']
    have hpair : ∀ p q, p < kept.length → q < kept.length → p < q →
        iouLE (boxes.getD (kept.getD p 0) default) (boxes.getD (kept.getD q 0) default) t
          = true := by
      intro p q hp hq hlt
      have h := List.pairwise_iff_get.mp hpw ⟨p, hp⟩ ⟨q, hq⟩ (Fin.mk_lt_mk.mpr hlt)
      rw [List.getD_eq_getElem kept 0 hp, List.getD_eq_getElem kept 0 hq]
      simpa using h
    have hall : ∀ p ∈ argsortDesc scores', ∀ q ∈ argsortDesc scores', p ≠ q →
        iouLE (boxes'.getD p default) (boxes'.getD q default) t = true := by
      intro p hp q hq hpq
      have hp' : p < kept.length := by
        have h1 := (argsortDesc_perm scores').mem_iff.mp hp
        have h2 := List.mem_range.mp h1
        rw [hs'len] at h2
        exact h2
      have hq' : q < kept.length := by
        have h1 := (argsortDesc_perm scores').mem_iff.mp hq
        have h2 := List.mem_range.mp h1
        rw [hs'len] at h2
        exact h2
      rw [hget p hp', hget q hq']
      rcases Nat.lt_or_ge p q with h | h
      · exact hpair p q hp' hq' h
      · have hqp : q < p := lt_of_le_of_ne h (Ne.symm hpq)
        rw [iouLE_comm]
        exact hpair q p hq' hp' hqp
    have hnodup : (argsortDesc scores').Nodup :=
      ((argsortDesc_perm scores').nodup_iff).mpr (List.nodup_range _)
    have heq : nmsGo boxes' t (argsortDesc scores').length (argsortDesc scores')
        = argsortDesc scores' :=
      nmsGo_no_discard boxes' t _ _ (le_refl _) hnodup hall
    unfold nms
    rw [if_neg hb'0, heq]
    have hperm := argsortDesc_perm scores'
    rw [hs'len] at hperm
    exact hperm

theorem getD_set_ne {α : Type} (l : List α) (i j : ℕ) (a d : α) (h : i ≠ j) :
    (l.set i a).getD j d = l.getD j d := by
  rw [List.getD_eq_getElem?_getD, List.getD_eq_getElem?_getD, List.getElem?_set_ne h]

theorem getD_set_self {α : Type} (l : List α) (i : ℕ) (a d : α) :
    (l.set i a).getD i d = if i < l.length then a else d := by
  induction l generalizing i with
  | nil => simp
  | cons x xs ih =>
      cases i with
      | zero => simp
      | succ n =>
          simp only [List.set_cons_succ, List.getD_cons_succ, List.length_cons]
          rw [ih n]
          congr 1
          simp [Nat.succ_lt_succ_iff]

theorem listMin_le (l : List ℕ) (a : ℕ) (h : a ∈ l) : listMin l ≤ a := by
  induction l with
  | nil => cases h
  | cons x xs ih =>
      cases xs with
      | nil =>
          rcases List.mem_singleton.mp h with rfl
          exact le_refl _
      | cons y ys =>
          show min x (listMin (y :: ys)) ≤ a
          rcases List.mem_cons.mp h with rfl | hmem
          · exact min_le_left _ _
          · exact le_trans (min_le_right _ _) (ih hmem)

theorem le_listMax (l : List ℕ) (a : ℕ) (h : a ∈ l) : a ≤ listMax l := by
  induction l with
  | nil => cases h
  | cons x xs ih =>
      cases xs with
      | nil =>
          rcases List.mem_singleton.mp h with rfl
          exact le_refl _
      | cons y ys =>
          show a ≤ max x (listMax (y :: ys))
          rcases List.mem_cons.mp h with rfl | hmem
          · exact le_max_left _ _
          · exact le_trans (ih hmem) (le_max_right _ _)

theorem listMin_mem (l : List ℕ) (h : l ≠ []) : listMin l ∈ l := by
  induction l with
  | nil => exact absurd rfl h
  | cons x xs ih =>
      cases xs with
      | nil => simp [listMin]
      | cons y ys =>
          show min x (listMin (y :: ys)) ∈ x :: y :: ys
          rcases le_total x (listMin (y :: ys)) with hle | hle
          · rw [min_eq_left hle]
            exact List.mem_cons_self _ _
          · rw [min_eq_right hle]
            exact List.mem_cons_of_mem x (ih (by simp))

theorem listMax_mem (l : List ℕ) (h : l ≠ []) : listMax l ∈ l := by
  induction l with
  | nil => exact absurd rfl h
  | cons x xs ih =>
      cases xs with
      | nil => simp [listMax]
      | cons y ys =>
          show max x (listMax (y :: ys)) ∈ x :: y :: ys
          rcases le_total x (listMax (y :: ys)) with hle | hle
          · rw [max_eq_right hle]
            exact List.mem_cons_of_mem x (ih (by simp))
          · rw [max_eq_left hle]
            exact List.mem_cons_self _ _

theorem getD_of_length_le {α : Type} (l : List α) (i : ℕ) (d : α) (h : l.length ≤ i) :
    l.getD i d = d := by
  rw [List.getD_eq_getElem?_getD, List.getElem?_eq_none h]
  rfl

theorem overwriteRow_getD_frame {α : Type} (vs : List α) :
    ∀ (row : List α) (x maxX x' : ℕ) (d : α), x' < x ∨ maxX < x' →
      (overwriteRow row x maxX vs).getD x' d = row.getD x' d := by
  induction vs with
  | nil => intro row x maxX x' d _; rfl
  | cons v vs ih =>
      intro row x maxX x' d h
      simp only [overwriteRow]
      by_cases hx : x ≤ maxX
      · rw [if_pos hx]
        have h' : x' < x + 1 ∨ maxX < x' := by
          rcases h with h | h
          · exact Or.inl (Nat.lt_succ_of_lt h)
          · exact Or.inr h
        rw [ih (row.set x v) (x + 1) maxX x' d h']
        apply getD_set_ne
        omega
      · rw [if_neg hx]

theorem overwriteRow_length {α : Type} (vs : List α) :
    ∀ (row : List α) (x maxX : ℕ), (overwriteRow row x maxX vs).length = row.length := by
  induction vs with
  | nil => intro row x maxX; rfl
  | cons v vs ih =>
      intro row x maxX
      simp only [overwriteRow]
      by_cases hx : x ≤ maxX
      · rw [if_pos hx, ih, List.length_set]
      · rw [if_neg hx]

theorem spliceGrid_frame {α : Type} (rs : Grid α) :
    ∀ (img : Grid α) (y maxY minX maxX y' x' : ℕ) (d : α),
      y' < y ∨ maxY < y' ∨ x' < minX ∨ maxX < x' →
      getPixel (spliceGrid img y maxY minX maxX rs) y' x' d = getPixel img y' x' d := by
  induction rs with
  | nil => intros; rfl
  | cons r rs ih =>
      intro img y maxY minX maxX y' x' d h
      simp only [spliceGrid]
      by_cases hy : y ≤ maxY
      · rw [if_pos hy]
        have h' : y' < y + 1 ∨ maxY < y' ∨ x' < minX ∨ maxX < x' := by
          rcases h with h | h
          · exact Or.inl (Nat.lt_succ_of_lt h)
          · exact Or.inr h
        rw [ih _ (y + 1) maxY minX maxX y' x' d h']
        unfold getPixel
        by_cases hyy : y = y'
        · subst hyy
          have hx : x' < minX ∨ maxX < x' := by
            rcases h with h | h | h | h
            · omega
            · omega
            · exact Or.inl h
            · exact Or.inr h
          rw [getD_set_self]
          by_cases hbound : y < img.length
          · rw [if_pos hbound]
            exact overwriteRow_getD_frame r (img.getD y []) minX maxX x' d hx
          · rw [if_neg hbound]
            rw [getD_of_length_le img y [] (Nat.le_of_not_lt hbound)]
        · rw [getD_set_ne _ _ _ _ _ hyy]
      · rw [if_neg hy]

theorem sameShape_refl {α : Type} (g : Grid α) : sameShape g g :=
  ⟨rfl, fun _ => rfl⟩

theorem sameShape_trans {α : Type} {g1 g2 g3 : Grid α}
    (h1 : sameShape g1 g2) (h2 : sameShape g2 g3) : sameShape g1 g3 :=
  ⟨h1.1.trans h2.1, fun y => (h1.2 y).trans (h2.2 y)⟩

theorem spliceGrid_sameShape {α : Type} (rs : Grid α) :
    ∀ (img : Grid α) (y maxY minX maxX : ℕ),
      sameShape (spliceGrid img y maxY minX maxX rs) img := by
  induction rs with
  | nil => intro img _ _ _ _; exact sameShape_refl img
  | cons r rs ih =>
      intro img y maxY minX maxX
      simp only [spliceGrid]
      by_cases hy : y ≤ maxY
      · rw [if_pos hy]
        refine sameShape_trans (ih _ (y + 1) maxY minX maxX) ?_
        constructor
        · exact List.length_set img y _
        · intro y'
          by_cases hyy : y = y'
          · subst hyy
            rw [getD_set_self]
            by_cases hbound : y < img.length
            · rw [if_pos hbound, overwriteRow_length]
            · rw [if_neg hbound]
              rw [getD_of_length_le img y [] (Nat.le_of_not_lt hbound)]
          · rw [getD_set_ne _ _ _ _ _ hyy]
      · rw [if_neg hy]
        exact sameShape_refl img

theorem mem_nonzeroRow (y : ℕ) (vs : List ℕ) :
    ∀ (x0 : ℕ) (p : ℕ × ℕ), p ∈ nonzeroRow y x0 vs →
      p.1 = y ∧ x0 ≤ p.2 ∧ 0 < vs.getD (p.2 - x0) 0 := by
  induction vs with
  | nil => intro x0 p h; cases h
  | cons v vs ih =>
      intro x0 p h
      simp only [nonzeroRow, List.mem_append] at h
      rcases h with h | h
      · by_cases hv : 0 < v
        · rw [if_pos hv] at h
          rcases List.mem_singleton.mp h with rfl
          refine ⟨rfl, le_refl _, ?_⟩
          simpa [Nat.sub_self] using hv
        · rw [if_neg hv] at h
          cases h
      · obtain ⟨h1, h2, h3⟩ := ih (x0 + 1) p h
        refine ⟨h1, le_trans (Nat.le_succ x0) h2, ?_⟩
        have he : p.2 - x0 = (p.2 - (x0 + 1)) + 1 := by omega
        rw [he, List.getD_cons_succ]
        exact h3

theorem mem_nonzeroAux (rows : Grid ℕ) :
    ∀ (y0 : ℕ) (p : ℕ × ℕ), p ∈ nonzeroAux y0 rows →
      y0 ≤ p.1 ∧ 0 < (rows.getD (p.1 - y0) []).getD p.2 0 := by
  induction rows with
  | nil => intro y0 p h; cases h
  | cons row rows ih =>
      intro y0 p h
      simp only [nonzeroAux, List.mem_append] at h
      rcases h with h | h
      · obtain ⟨h1, _, h3⟩ := mem_nonzeroRow y0 row 0 p h
        refine ⟨le_of_eq h1.symm, ?_⟩
        rw [h1, Nat.sub_self, List.getD_cons_zero]
        simpa using h3
      · obtain ⟨h1, h2⟩ := ih (y0 + 1) p h
        refine ⟨le_trans (Nat.le_succ _) h1, ?_⟩
        have he : p.1 - y0 = (p.1 - (y0 + 1)) + 1 := by omega
        rw [he, List.getD_cons_succ]
        exact h2

theorem nonzeroPos_pixel_pos (mask : Grid ℕ) (p : ℕ × ℕ) (h : p ∈ nonzeroPos mask) :
    0 < getPixel mask p.1 p.2 0 := by
  obtain ⟨_, h2⟩ := mem_nonzeroAux mask 0 p h
  simpa [getPixel] using h2

theorem enhance_small_cells_sameShape {α : Type} (maskOf : Grid α → Grid ℕ)
    (roiFn : Grid α → Grid α) (image : Grid α) :
    sameShape (enhance_small_cells maskOf roiFn image) image := by
  unfold enhance_small_cells
  split
  · exact sameShape_refl image
  · split
    · exact spliceGrid_sameShape _ image _ _ _ _
    · exact sameShape_refl image

/-- C7: for every input image whose accumulator mask is entirely empty,
enhance_small_cells returns the input image unchanged (a defined no-op,
not an error): small_cell.py line 77 skips the whole enhancement branch
when np.where finds no positive mask pixel. -/
theorem enhance_small_cells_empty_mask_claim {α : Type} (maskOf : Grid α → Grid ℕ)
    (roiFn : Grid α → Grid α) (image : Grid α)
    (h : ∀ y x : ℕ, getPixel (maskOf image) y x 0 = 0) :
    enhance_small_cells maskOf roiFn image = image := by
  have hempty : nonzeroPos (maskOf image) = [] := by
    cases hc : nonzeroPos (maskOf image) with
    | nil => rfl
    | cons p ps =>
        have hp : p ∈ nonzeroPos (maskOf image) := by
          rw [hc]
          exact List.mem_cons_self _ _
        have hpos := nonzeroPos_pixel_pos _ p hp
        rw [h p.1 p.2] at hpos
        exact absurd hpos (lt_irrefl 0)
  unfold enhance_small_cells
  rw [if_pos hempty]

theorem enhance_small_cells_empty_mask_claim_witness :
    enhance_small_cells (fun _ => ([] : Grid ℕ)) (fun g => g) [[1, 2], [3, 4]]
      = [[1, 2], [3, 4]] :=
  enhance_small_cells_empty_mask_claim _ _ _ (fun _ _ => rfl)

/-- C10: when the mask is non-empty but all its non-zero pixels lie in a
single row (min_y = max_y) or a single column (min_x = max_x),
enhance_small_cells returns the input unchanged: the guard at
small_cell.py line 83 requires min_y < max_y and min_x < max_x before
enhancing, so the whole enhancement branch is skipped. -/
theorem enhance_small_cells_single_line_claim {α : Type} (maskOf : Grid α → Grid ℕ)
    (roiFn : Grid α → Grid α) (image : Grid α)
    (hne : nonzeroPos (maskOf image) ≠ [])
    (hdeg : listMin ((nonzeroPos (maskOf image)).map Prod.fst)
              = listMax ((nonzeroPos (maskOf image)).map Prod.fst)
          ∨ listMin ((nonzeroPos (maskOf image)).map Prod.snd)
              = listMax ((nonzeroPos (maskOf image)).map Prod.snd)) :
    enhance_small_cells maskOf roiFn image = image := by
  unfold enhance_small_cells
  rw [if_neg hne, if_neg]
  rintro ⟨h1, h2⟩
  rcases hdeg with h | h
  · rw [h] at h1
    exact lt_irrefl _ h1
  · rw [h] at h2
    exact lt_irrefl _ h2

theorem enhance_small_cells_single_line_claim_witness :
    enhance_small_cells (fun _ => ([[1, 1]] : Grid ℕ)) (fun g => g) [[1, 2], [3, 4]]
      = [[1, 2], [3, 4]] :=
  enhance_small_cells_single_line_claim _ _ _ (by decide) (Or.inl (by decide))

/-- C6: enhance_small_cells modifies pixels only inside the tight
bounding rectangle of the non-zero pixels of the accumulator mask: the
rectangle [min_y, max_y] x [min_x, max_x] bounds every non-zero mask
pixel, and every pixel strictly outside it is returned unchanged
(small_cell.py lines 79-103 splice the enhanced ROI back into a copy of
the input at exactly those coordinates). -/
theorem enhance_small_cells_frame_claim {α : Type} (maskOf : Grid α → Grid ℕ)
    (roiFn : Grid α → Grid α) (image : Grid α) (y x : ℕ) (d : α) :
    (∀ p ∈ nonzeroPos (maskOf image),
        listMin ((nonzeroPos (maskOf image)).map Prod.fst) ≤ p.1
      ∧ p.1 ≤ listMax ((nonzeroPos (maskOf image)).map Prod.fst)
      ∧ listMin ((nonzeroPos (maskOf image)).map Prod.snd) ≤ p.2
      ∧ p.2 ≤ listMax ((nonzeroPos (maskOf image)).map Prod.snd))
  ∧ ((y < listMin ((nonzeroPos (maskOf image)).map Prod.fst)
      ∨ listMax ((nonzeroPos (maskOf image)).map Prod.fst) < y
      ∨ x < listMin ((nonzeroPos (maskOf image)).map Prod.snd)
      ∨ listMax ((nonzeroPos (maskOf image)).map Prod.snd) < x) →
      getPixel (enhance_small_cells maskOf roiFn image) y x d = getPixel image y x d) := by
  constructor
  · intro p hp
    exact ⟨listMin_le _ _ (List.mem_map_of_mem Prod.fst hp),
      le_listMax _ _ (List.mem_map_of_mem Prod.fst hp),
      listMin_le _ _ (List.mem_map_of_mem Prod.snd hp),
      le_listMax _ _ (List.mem_map_of_mem Prod.snd hp)⟩
  · intro hout
    unfold enhance_small_cells
    split
    · rfl
    · split
      · exact spliceGrid_frame _ image _ _ _ _ y x d hout
      · rfl

theorem enhance_small_cells_frame_claim_witness :
    getPixel (enhance_small_cells (fun _ => ([[1, 0], [0, 1]] : Grid ℕ)) (fun g => g)
        [[1, 2, 3], [4, 5, 6], [7, 8, 9]]) 2 2 0
      = getPixel [[1, 2, 3], [4, 5, 6], [7, 8, 9]] 2 2 0 :=
  (enhance_small_cells_frame_claim (fun _ => ([[1, 0], [0, 1]] : Grid ℕ)) (fun g => g)
    [[1, 2, 3], [4, 5, 6], [7, 8, 9]] 2 2 0).2 (by decide)

/-- C9: enhancement preserves image shape.  The repository's
composition logic (method dispatch, the small-cell splice, the optional
denoise step) never resizes: given that the dispatched method's OpenCV
pipeline and the OpenCV denoiser preserve shape (their documented
library contract), the enhanced image has the height and per-row width
of the input; the small-cell stage preserves shape unconditionally. -/
theorem enhance_image_shape_claim {α : Type} (P : EnhancePrims α) (method : Method)
    (sc : Bool) (dl : ℕ) (image : Grid α)
    (hm : sameShape (dispatchMethod P method image) image)
    (hd : ∀ g : Grid α, sameShape (P.denoiseFn g) g) :
    sameShape (enhance_image P method sc dl image) image := by
  have hmid : sameShape
      (if sc then enhance_small_cells P.maskOf P.roiFn (dispatchMethod P method image)
       else dispatchMethod P method image) image := by
    cases sc with
    | true => simpa using sameShape_trans (enhance_small_cells_sameShape _ _ _) hm
    | false => simpa using hm
  unfold enhance_image
  split
  · exact sameShape_trans (hd _) hmid
  · exact hmid

theorem enhance_image_shape_claim_witness :
    sameShape (enhance_image idPrims Method.basic true 5 [[1, 2], [3, 4]]) [[1, 2], [3, 4]] :=
  enhance_image_shape_claim idPrims Method.basic true 5 [[1, 2], [3, 4]]
    (sameShape_refl _) (fun g => sameShape_refl g)

/-- C8: a connected component is classified as small iff
max(width, height) < pixel_threshold where pixel_threshold =
floor(min(image_height, image_width) * relative_size_threshold); the
comparison is strict, so a component whose larger dimension equals the
threshold exactly is not small (small_cell.py lines 28 and 48; Python's
int() truncation agrees with floor for the non-negative product). -/
theorem small_component_threshold_claim (h w : ℕ) (rel : ℚ) (width height : ℕ)
    (hrel : 0 ≤ rel) :
    (isSmallComponent h w rel width height = true
      ↔ ((max width height : ℕ) : ℤ) < ⌊((min h w : ℕ) : ℚ) * rel⌋)
  ∧ (((max width height : ℕ) : ℤ) = ⌊((min h w : ℕ) : ℚ) * rel⌋ →
      isSmallComponent h w rel width height = false) := by
  have hq : (0 : ℚ) ≤ ((min h w : ℕ) : ℚ) * rel := mul_nonneg (Nat.cast_nonneg _) hrel
  have hpy : cellPixelThreshold h w rel = ⌊((min h w : ℕ) : ℚ) * rel⌋ := by
    unfold cellPixelThreshold pyInt
    rw [if_pos hq]
  constructor
  · rw [isSmallComponent, hpy]
    exact decide_eq_true_iff
  · intro heq
    rw [isSmallComponent, hpy]
    apply decide_eq_false
    rw [heq]
    exact lt_irrefl _

theorem small_component_threshold_claim_witness :
    isSmallComponent 1000 1200 (1/200) 5 3 = false :=
  (small_component_threshold_claim 1000 1200 (1/200) 5 3 (by norm_num)).2 (by norm_num)

/-- C3: the score filter of post_process keeps exactly the rows whose
confidence sigmoid(column 4) strictly exceeds the threshold
(detect.py line 104 uses scores > threshold): a row whose confidence
equals the threshold is excluded; in particular a raw logit of 0 has
sigmoid 0.5 and is excluded at threshold 0.5; a row with confidence
threshold + eps (eps > 0) is included. -/
theorem post_process_filter_claim (pred : List PredRow) (t : ℝ) (r : PredRow) :
    (r ∈ scoreFilter pred t ↔ r ∈ pred ∧ t < confidence r)
  ∧ sigmoid 0 = 1 / 2
  ∧ (confidence r = t → r ∉ scoreFilter pred t)
  ∧ (r.logit = 0 → t = 1 / 2 → r ∉ scoreFilter pred t)
  ∧ (∀ ε : ℝ, 0 < ε → confidence r = t + ε → r ∈ pred → r ∈ scoreFilter pred t) := by
  have hmem : r ∈ scoreFilter pred t ↔ r ∈ pred ∧ t < confidence r := by
    unfold scoreFilter
    rw [List.mem_filter]
    constructor
    · rintro ⟨h1, h2⟩
      exact ⟨h1, of_decide_eq_true h2⟩
    · rintro ⟨h1, h2⟩
      exact ⟨h1, decide_eq_true h2⟩
  have hsig : sigmoid 0 = 1 / 2 := by
    unfold sigmoid
    rw [neg_zero, Real.exp_zero]
    norm_num
  refine ⟨hmem, hsig, ?_, ?_, ?_⟩
  · intro heq hin
    have h2 := (hmem.mp hin).2
    rw [heq] at h2
    exact lt_irrefl t h2
  · intro hlog ht hin
    have h2 := (hmem.mp hin).2
    unfold confidence at h2
    rw [hlog, hsig, ht] at h2
    exact lt_irrefl _ h2
  · intro ε hε heq hin
    apply hmem.mpr
    refine ⟨hin, ?_⟩
    rw [heq]
    exact lt_add_of_pos_right t hε

theorem post_process_filter_claim_witness :
    exampleRow ∉ scoreFilter [exampleRow] (1 / 2) :=
  (post_process_filter_claim [exampleRow] (1 / 2) exampleRow).2.2.2.1 rfl rfl

/-- C1 (amended): nms returns [] for empty input and otherwise runs the
greedy score-sorted loop in which a remaining box survives a kept box i
exactly when its IoU comparison with i succeeds, i.e. the denominator
area_i + area_j - inter is non-zero and inter/denominator <= threshold
(a zero denominator makes the floating comparison false, discarding the
box); consequently the kept indices are a subset of the input indices,
any two kept boxes whose IoU is defined have IoU <= threshold, and the
kept indices come in descending-score order. -/
theorem nms_greedy_claim (boxes : List Box) (scores : List ℚ) (t : ℚ)
    (hlen : scores.length = boxes.length) :
    (boxes = [] → nms boxes scores t = [])
  ∧ (∀ i ∈ nms boxes scores t, i < boxes.length)
  ∧ (nms boxes scores t).Pairwise
      (fun i j => iouLE (boxes.getD i default) (boxes.getD j default) t = true)
  ∧ (nms boxes scores t).Pairwise
      (fun i j => ∀ v, iouOpt (boxes.getD i default) (boxes.getD j default) = some v → v ≤ t)
  ∧ (nms boxes scores t).Sorted (fun i j => scores.getD j 0 ≤ scores.getD i 0) := by
  refine ⟨?_, ?_, nms_pairwise boxes scores t, ?_, nms_sorted boxes scores t⟩
  · intro h
    subst h
    simp [nms]
  · intro i hi
    rw [← hlen]
    exact nms_mem_lt boxes scores t i hi
  · exact (nms_pairwise boxes scores t).imp (fun h => iouLE_of_some_le h)

theorem nms_greedy_claim_witness :
    (2 : ℕ) ∈ nms exBoxes exScores (1/2) ∧ 2 < exBoxes.length :=
  ⟨by norm_num [exBoxes, exScores, nms, nmsGo, argsortDesc, List.insertionSort,
      List.orderedInsert, iouLE, iouOpt, iouDenom, area, interArea, List.filter],
   (nms_greedy_claim exBoxes exScores (1/2) rfl).2.1 2
     (by norm_num [exBoxes, exScores, nms, nmsGo, argsortDesc, List.insertionSort,
        List.orderedInsert, iouLE, iouOpt, iouDenom, area, interArea, List.filter])⟩

/-- C1 counterexample: on two degenerate boxes the code differs from the
claimed algorithm.  Both boxes have zero area, so their guarded IoU is 0,
which is not strictly greater than the threshold 1/2: the claim requires
both boxes kept (as nmsSpec, written from the spec's words, does), but
nms discards the second box. -/
theorem nms_greedy_counterexample :
    nms [⟨1, 1, 1, 1⟩, ⟨2, 2, 2, 2⟩] [9/10, 8/10] (1/2) = [0]
  ∧ nmsSpec [⟨1, 1, 1, 1⟩, ⟨2, 2, 2, 2⟩] [9/10, 8/10] (1/2) = [0, 1]
  ∧ iouSpecVal ⟨1, 1, 1, 1⟩ ⟨2, 2, 2, 2⟩ = 0 := by
  refine ⟨?_, ?_, ?_⟩
  · norm_num [nms, nmsGo, argsortDesc, List.insertionSort, List.orderedInsert,
      iouLE, iouOpt, iouDenom, area, interArea, List.filter]
  · norm_num [nmsSpec, nmsSpecGo, argsortDesc, List.insertionSort, List.orderedInsert,
      iouSpecVal, iouDenom, area, interArea, List.filter]
  · norm_num [iouSpecVal, area, interArea]

/-- C2 (amended): when both compared areas are zero the IoU denominator
is exactly zero, numpy evaluates 0/0 to NaN, the comparison
iou <= threshold is false, and the remaining degenerate box IS
suppressed (detect.py lines 174-180 contain no guard). -/
theorem nms_zero_area_claim (a b : Box) (s1 s2 t : ℚ)
    (ha : area a = 0) (hb : area b = 0) (hs : s2 < s1) :
    iouDenom a b = 0 ∧ iouLE a b t = false ∧ nms [a, b] [s1, s2] t = [0] := by
  have hf := iouLE_false_of_areas t ha hb
  have hle : s2 ≤ s1 := le_of_lt hs
  refine ⟨iouDenom_eq_zero_of_areas ha hb, hf, ?_⟩
  norm_num [nms, nmsGo, argsortDesc, List.insertionSort, List.orderedInsert,
    List.filter, hle, hf]

theorem nms_zero_area_claim_witness :
    iouDenom ⟨0, 0, 0, 3⟩ ⟨5, 5, 5, 9⟩ = 0
  ∧ iouLE ⟨0, 0, 0, 3⟩ ⟨5, 5, 5, 9⟩ (1/2) = false
  ∧ nms [⟨0, 0, 0, 3⟩, ⟨5, 5, 5, 9⟩] [2/3, 1/3] (1/2) = [0] :=
  nms_zero_area_claim ⟨0, 0, 0, 3⟩ ⟨5, 5, 5, 9⟩ (2/3) (1/3) (1/2)
    (by norm_num [area]) (by norm_num [area]) (by norm_num)

/-- C2 counterexample: two identical zero-area boxes.  The IoU
denominator of the compared pair is zero (so the division at line 174 is
0/0) and the lower-scoring degenerate box is erroneously suppressed,
contrary to the claim that it is kept with IoU treated as 0. -/
theorem nms_zero_area_counterexample :
    iouDenom ⟨0, 0, 0, 0⟩ ⟨0, 0, 0, 0⟩ = 0
  ∧ nms [⟨0, 0, 0, 0⟩, ⟨0, 0, 0, 0⟩] [9/10, 8/10] (1/2) = [0] := by
  constructor
  · norm_num [iouDenom, area, interArea]
  · norm_num [nms, nmsGo, argsortDesc, List.insertionSort, List.orderedInsert,
      iouLE, iouOpt, iouDenom, area, interArea, List.filter]

/-- C4: NMS is idempotent: running nms again on exactly the boxes and
scores it kept, with the same threshold, keeps all of them (the result
enumerates every index of the kept list, none is suppressed). -/
theorem nms_idempotent_claim (boxes : List Box) (scores : List ℚ) (t : ℚ) :
    List.Perm
      (nms ((nms boxes scores t).map fun i => boxes.getD i default)
           ((nms boxes scores t).map fun i => scores.getD i 0) t)
      (List.range (nms boxes scores t).length) :=
  nms_idem_core boxes scores t

/-- C5 (amended): the IoU computed inside nms satisfies iou(a, a) = 1
for boxes of positive extent (x1 < x2 and y1 < y2); iou(a, b) = 0 for
non-overlapping boxes whose denominator is non-zero; iou is symmetric
for all boxes; the intersection is clamped at 0. -/
theorem iou_properties_claim (a b : Box) :
    (a.x1 < a.x2 → a.y1 < a.y2 → iouOpt a a = some 1)
  ∧ (interArea a b = 0 → iouDenom a b ≠ 0 → iouOpt a b = some 0)
  ∧ iouOpt a b = iouOpt b a
  ∧ 0 ≤ interArea a b := by
  refine ⟨?_, ?_, iouOpt_comm a b, interArea_nonneg a b⟩
  · intro hx hy
    have hinter : interArea a a = area a := by
      unfold interArea area
      rw [min_self, min_self, max_self, max_self]
      rw [max_eq_right (sub_nonneg.mpr hx.le), max_eq_right (sub_nonneg.mpr hy.le)]
    have hpos : 0 < area a := mul_pos (sub_pos.mpr hx) (sub_pos.mpr hy)
    have hden : iouDenom a a = area a := by
      unfold iouDenom
      rw [hinter]
      ring
    unfold iouOpt
    rw [hden, hinter, if_neg (ne_of_gt hpos), div_self (ne_of_gt hpos)]
  · intro hz hd
    unfold iouOpt
    rw [if_neg hd, hz, zero_div]

theorem iou_properties_claim_witness :
    iouOpt ⟨0, 0, 2, 2⟩ ⟨0, 0, 2, 2⟩ = some 1
  ∧ iouOpt ⟨0, 0, 2, 2⟩ ⟨5, 5, 7, 7⟩ = some 0 :=
  ⟨(iou_properties_claim ⟨0, 0, 2, 2⟩ ⟨0, 0, 2, 2⟩).1 (by norm_num) (by norm_num),
   (iou_properties_claim ⟨0, 0, 2, 2⟩ ⟨5, 5, 7, 7⟩).2.1 (by norm_num [interArea])
     (by norm_num [iouDenom, area, interArea])⟩

/-- C5 counterexample: for a zero-area box the self-IoU is not 1: the
denominator is zero, the float division yields NaN, embedded as none. -/
theorem iou_self_counterexample :
    iouOpt ⟨0, 0, 0, 0⟩ ⟨0, 0, 0, 0⟩ = none
  ∧ iouOpt ⟨0, 0, 0, 0⟩ ⟨0, 0, 0, 0⟩ ≠ some 1 := by
  have h : iouOpt ⟨0, 0, 0, 0⟩ ⟨0, 0, 0, 0⟩ = none := by
    norm_num [iouOpt, iouDenom, area, interArea]
  refine ⟨h, ?_⟩
  rw [h]
  simp
